import Mathlib

/-!
A shallow embedding of the content-address codec of src/libstore/content-address.cc:
model types, the prefix-grammar parser, the renderer, and the reference-aware
constructors and accessors, together with theorems settling the spec's claims.
Strings are embedded as List Char.
-/

namespace Nix

/-- Modelled from the spec: the hash subsystem's algorithm enumeration is not in
the repository slice; the spec names a small fixed set of digest names, among
them sha256 and sha1. -/
inductive HashType where
  | md5
  | sha1
  | sha256
  | sha512
  deriving DecidableEq

/-- Modelled from the spec: the hash subsystem's rendering of an algorithm name. -/
def printHashType : HashType → List Char
  | .md5 => "md5".toList
  | .sha1 => "sha1".toList
  | .sha256 => "sha256".toList
  | .sha512 => "sha512".toList

/-- Modelled from the spec: the hash subsystem resolves algorithm names and
raises a distinguishable error, here None, for unknown ones. -/
def parseHashType (s : List Char) : Option HashType :=
  if s = "md5".toList then some .md5
  else if s = "sha1".toList then some .sha1
  else if s = "sha256".toList then some .sha256
  else if s = "sha512".toList then some .sha512
  else none

/-- Modelled from the spec: digest sizes in bytes of the hash algorithms. -/
def hashSize : HashType → Nat
  | .md5 => 16
  | .sha1 => 20
  | .sha256 => 32
  | .sha512 => 64

/-- Modelled from the spec: length of the unpadded base-32 rendering of a digest. -/
def base32Len (ht : HashType) : Nat := (hashSize ht * 8 - 1) / 5 + 1

/-- Modelled from the spec: the character set of the non-self-describing base-32
digest encoding (no padding, no embedded algorithm tag). -/
def base32Chars : List Char := "0123456789abcdfghijklmnpqrsvwxyz".toList

/-- Modelled from the spec: a digest is opaque to this module; it is carried in
its unpadded base-32 textual form together with its algorithm. -/
structure Hash where
  type : HashType
  digest : List Char
  deriving DecidableEq

/-- Modelled from the spec: a well-formed digest body for an algorithm has the
algorithm's base-32 length and only base-32 characters. -/
def Hash.validDigest (ht : HashType) (s : List Char) : Bool :=
  s.length = base32Len ht && s.all (fun c => base32Chars.contains c)

/-- The errors of the codec: malformed address at the scheme-prefix boundary,
malformed at the algorithm boundary, unrecognized scheme prefix, unknown hash
algorithm (propagated from the hash subsystem), invalid digest encoding
(propagated from the hash subsystem). -/
inductive ParseError where
  | malformedCA (wholeInput : List Char)
  | malformedHash (wholeInput : List Char)
  | unrecognizedCA (pfx : List Char)
  | unknownHashAlgo (name : List Char)
  | invalidDigest (body : List Char)
  deriving DecidableEq

/-- The error messages, following the format strings of the source; the
unrecognized-prefix message names the offending prefix and lists the two valid
prefixes. -/
def ParseError.message : ParseError → List Char
  | .malformedCA w =>
      "not a content address because it is not in the form '<prefix>:<rest>': ".toList ++ w
  | .malformedHash w =>
      "content address hash must be in form '<algo>:<hash>', but found: ".toList ++ w
  | .unrecognizedCA p =>
      "content address prefix '".toList ++ p
        ++ "' is unrecognized. Recogonized prefixes are 'text' or 'fixed'".toList
  | .unknownHashAlgo n => "unknown hash algorithm '".toList ++ n ++ "'".toList
  | .invalidDigest b => "invalid base-32 digest: ".toList ++ b

/-- ParseError.isMalformed picks out the two MalformedAddress error shapes. -/
def ParseError.isMalformed : ParseError → Bool
  | .malformedCA _ => true
  | .malformedHash _ => true
  | _ => false

/-- Modelled from the spec: splitPrefixTo of the missing split.hh header splits
the string at the first occurrence of the separator, returning the part before
it and the part after it, or nothing when the separator is absent. -/
def splitPrefixTo : List Char → Char → Option (List Char × List Char)
  | [], _ => none
  | c :: cs, sep =>
    if c = sep then some ([], cs)
    else
      match splitPrefixTo cs sep with
      | none => none
      | some (a, b) => some (c :: a, b)

/-- Recursion helper for splitPrefix, consuming the expected leading string
character by character; the expected string is the first argument. -/
def splitPrefixAux : List Char → List Char → Option (List Char)
  | [], s => some s
  | _ :: _, [] => none
  | p :: ps, c :: cs => if c = p then splitPrefixAux ps cs else none

/-- Modelled from the spec: splitPrefix of the missing split.hh header consumes
a literal leading string when present, returning the remainder. -/
def splitPrefix (s pre : List Char) : Option (List Char) :=
  splitPrefixAux pre s

/-- Modelled from the spec: the hash subsystem's parse of a digest body in the
non-self-describing unpadded base-32 form, for a known algorithm. -/
def Hash.parseNonSRIUnprefixed (s : List Char) (ht : HashType) : Except ParseError Hash :=
  if Hash.validDigest ht s then .ok ⟨ht, s⟩ else .error (.invalidDigest s)

/-- Modelled from the spec: the hash subsystem's rendering of a hash in base-32;
when includeType is set the algorithm name and a colon precede the digest body. -/
def Hash.to_string_Base32 (h : Hash) (includeType : Bool) : List Char :=
  (if includeType then printHashType h.type ++ [':'] else []) ++ h.digest

/-- FileIngestionMethod of the source: flat byte string or recursive tree. -/
inductive FileIngestionMethod where
  | Flat
  | Recursive
  deriving DecidableEq

/-- ContentAddressMethod of the source: the variant of TextHashMethod and
FileIngestionMethod. -/
inductive ContentAddressMethod where
  | textHashMethod
  | fileIngestionMethod (m : FileIngestionMethod)
  deriving DecidableEq

/-- makeFileIngestionPrefix of the source. -/
def makeFileIngestionPrefix : FileIngestionMethod → List Char
  | .Flat => []
  | .Recursive => "r:".toList

/-- makeContentAddressingPrefix of the source. -/
def makeContentAddressingPrefix : ContentAddressMethod → List Char
  | .textHashMethod => "text:".toList
  | .fileIngestionMethod m2 => makeFileIngestionPrefix m2

/-- parseContentAddressingPrefix of the source: the argument is passed by
reference and mutated, so the embedding returns the method together with the
unconsumed remainder. -/
def parseContentAddressingPrefix (m : List Char) : ContentAddressMethod × List Char :=
  match splitPrefix m "r:".toList with
  | some rest => (.fileIngestionMethod .Recursive, rest)
  | none =>
    match splitPrefix m "text:".toList with
    | some rest => (.textHashMethod, rest)
    | none => (.fileIngestionMethod .Flat, m)

/-- TextHash of the source. -/
structure TextHash where
  hash : Hash
  deriving DecidableEq

/-- FixedOutputHash of the source. -/
structure FixedOutputHash where
  method : FileIngestionMethod
  hash : Hash
  deriving DecidableEq

/-- ContentAddress of the source: the variant of TextHash and FixedOutputHash. -/
inductive ContentAddress where
  | textHash (h : TextHash)
  | fixedOutputHash (h : FixedOutputHash)
  deriving DecidableEq

/-- renderContentAddress of the source (ContentAddress overload). -/
def renderContentAddress : ContentAddress → List Char
  | .textHash th => "text:".toList ++ th.hash.to_string_Base32 true
  | .fixedOutputHash fsh =>
      "fixed:".toList ++ makeFileIngestionPrefix fsh.method ++ fsh.hash.to_string_Base32 true

/-- renderContentAddressMethodAndHash of the source. -/
def renderContentAddressMethodAndHash (cam : ContentAddressMethod) (ht : HashType) : List Char :=
  match cam with
  | .textHashMethod => "text:".toList ++ printHashType ht
  | .fileIngestionMethod fim => "fixed:".toList ++ makeFileIngestionPrefix fim ++ printHashType ht

/-- The parseHashType_ helper lambda of parseContentAddressMethodPrefix: split
the remainder at the next colon and resolve the algorithm name; it captures the
whole input for the malformed-address message. -/
def parseHashTypeStep (wholeInput rest : List Char) :
    Except ParseError (HashType × List Char) :=
  match splitPrefixTo rest ':' with
  | none => .error (.malformedHash wholeInput)
  | some (hashTypeRaw, rest2) =>
    match parseHashType hashTypeRaw with
    | none => .error (.unknownHashAlgo hashTypeRaw)
    | some hashType => .ok (hashType, rest2)

/-- parseContentAddressMethodPrefix of the source: parses a content address
string up to the hash body, returning the method, the algorithm and the
unconsumed remainder. -/
def parseContentAddressMethodPrefix (s : List Char) :
    Except ParseError ((ContentAddressMethod × HashType) × List Char) :=
  match splitPrefixTo s ':' with
  | none => .error (.malformedCA s)
  | some (pfx, rest) =>
    if pfx = "text".toList then
      match parseHashTypeStep s rest with
      | .error e => .error e
      | .ok (hashType, rest2) => .ok ((.textHashMethod, hashType), rest2)
    else if pfx = "fixed".toList then
      match
        (match splitPrefix rest "r:".toList with
         | some r2 => (FileIngestionMethod.Recursive, r2)
         | none => (FileIngestionMethod.Flat, rest)) with
      | (method, rest1) =>
        match parseHashTypeStep s rest1 with
        | .error e => .error e
        | .ok (hashType, rest2) => .ok ((.fileIngestionMethod method, hashType), rest2)
    else .error (.unrecognizedCA pfx)

/-- parseContentAddress of the source. -/
def parseContentAddress (rawCa : List Char) : Except ParseError ContentAddress :=
  match parseContentAddressMethodPrefix rawCa with
  | .error e => .error e
  | .ok ((caMethod, hashType), rest) =>
    match caMethod with
    | .textHashMethod =>
      match Hash.parseNonSRIUnprefixed rest hashType with
      | .error e => .error e
      | .ok h => .ok (.textHash ⟨h⟩)
    | .fileIngestionMethod fim =>
      match Hash.parseNonSRIUnprefixed rest hashType with
      | .error e => .error e
      | .ok h => .ok (.fixedOutputHash ⟨fim, h⟩)

/-- parseContentAddressMethod of the source: append a trailing colon and feed
the prefix grammar, discarding the leftover continuation. -/
def parseContentAddressMethod (caMethod : List Char) :
    Except ParseError (ContentAddressMethod × HashType) :=
  match parseContentAddressMethodPrefix (caMethod ++ [':']) with
  | .error e => .error e
  | .ok (p, _) => .ok p

/-- parseContentAddressOpt of the source: the empty string is no address. -/
def parseContentAddressOpt (rawCaOpt : List Char) : Except ParseError (Option ContentAddress) :=
  if rawCaOpt = [] then .ok none
  else
    match parseContentAddress rawCaOpt with
    | .error e => .error e
    | .ok ca => .ok (some ca)

/-- renderContentAddress of the source (optional overload). -/
def renderContentAddressOpt : Option ContentAddress → List Char
  | some ca => renderContentAddress ca
  | none => []

/-- StoreReferences of the source; the opaque store-path identifiers of the
others set are modelled as strings. -/
structure StoreReferences where
  self : Bool
  others : List (List Char)
  deriving DecidableEq

/-- StoreReferences empty test of the source. -/
def StoreReferences.isEmptyRefs (r : StoreReferences) : Bool :=
  !r.self && r.others.isEmpty

/-- StoreReferences size of the source. -/
def StoreReferences.size (r : StoreReferences) : Nat :=
  (if r.self then 1 else 0) + r.others.length

/-- TextInfo of the source: a text hash with non-self references only. -/
structure TextInfo where
  hash : TextHash
  references : List (List Char)
  deriving DecidableEq

/-- FixedOutputInfo of the source. -/
structure FixedOutputInfo where
  hash : FixedOutputHash
  references : StoreReferences
  deriving DecidableEq

/-- ContentAddressWithReferences of the source: the variant of TextInfo and
FixedOutputInfo. -/
inductive ContentAddressWithReferences where
  | textInfo (i : TextInfo)
  | fixedOutputInfo (i : FixedOutputInfo)
  deriving DecidableEq

/-- The error thrown when a self reference is combined with the text scheme. -/
inductive RefError where
  | invalidReferenceCombination
  deriving DecidableEq

/-- contentAddressFromMethodHashAndRefs of the source. -/
def contentAddressFromMethodHashAndRefs (method : ContentAddressMethod) (hash : Hash)
    (refs : StoreReferences) : Except RefError ContentAddressWithReferences :=
  match method with
  | .textHashMethod =>
    if refs.self then .error .invalidReferenceCombination
    else .ok (.textInfo ⟨⟨hash⟩, refs.others⟩)
  | .fileIngestionMethod m2 => .ok (.fixedOutputInfo ⟨⟨m2, hash⟩, refs⟩)

/-- getContentAddressMethod of the source. -/
def getContentAddressMethod : ContentAddressWithReferences → ContentAddressMethod
  | .textInfo _ => .textHashMethod
  | .fixedOutputInfo fsh => .fileIngestionMethod fsh.hash.method

/-- getContentAddressHash of the source (ContentAddress overload). -/
def getContentAddressHash : ContentAddress → Hash
  | .textHash th => th.hash
  | .fixedOutputHash fsh => fsh.hash

/-- getContentAddressHash of the source (ContentAddressWithReferences overload). -/
def getContentAddressHashWithRefs : ContentAddressWithReferences → Hash
  | .textInfo th => th.hash.hash
  | .fixedOutputInfo fsh => fsh.hash.hash

/-- caWithoutRefs of the source: lift a bare address, with empty references. -/
def caWithoutRefs : ContentAddress → ContentAddressWithReferences
  | .textHash h => .textInfo ⟨h, []⟩
  | .fixedOutputHash h => .fixedOutputInfo ⟨h, ⟨false, []⟩⟩

/-- Well-formedness of the hash carried by a ContentAddress: its digest body is
a valid unpadded base-32 digest for its algorithm. -/
def contentAddressWf : ContentAddress → Bool
  | .textHash th => Hash.validDigest th.hash.type th.hash.digest
  | .fixedOutputHash fsh => Hash.validDigest fsh.hash.type fsh.hash.digest

end Nix

namespace Nix

/-! Helper lemmas about the split utilities and the hash-algorithm names. -/

theorem splitPrefixTo_eq_some {c : Char} :
    ∀ {s a b : List Char}, splitPrefixTo s c = some (a, b) → s = a ++ c :: b ∧ c ∉ a := by
  intro s
  induction s with
  | nil => intro a b h; simp [splitPrefixTo] at h
  | cons x xs ih =>
    intro a b h
    rw [splitPrefixTo] at h
    by_cases hx : x = c
    · rw [if_pos hx] at h
      simp only [Option.some.injEq, Prod.mk.injEq] at h
      obtain ⟨ha, hb⟩ := h
      subst ha; subst hb; subst hx
      simp
    · rw [if_neg hx] at h
      cases hs : splitPrefixTo xs c with
      | none => rw [hs] at h; simp at h
      | some p =>
        obtain ⟨a2, b2⟩ := p
        rw [hs] at h
        simp only [Option.some.injEq, Prod.mk.injEq] at h
        obtain ⟨ha, hb⟩ := h
        obtain ⟨h1, h2⟩ := ih hs
        subst ha; subst hb
        constructor
        · simp [h1]
        · simp only [List.mem_cons, not_or]
          exact ⟨fun hcx => hx hcx.symm, h2⟩

theorem splitPrefixTo_append {c : Char} :
    ∀ (a b : List Char), c ∉ a → splitPrefixTo (a ++ c :: b) c = some (a, b) := by
  intro a
  induction a with
  | nil => intro b _; simp [splitPrefixTo]
  | cons x xs ih =>
    intro b h
    simp only [List.mem_cons, not_or] at h
    rw [List.cons_append, splitPrefixTo, if_neg (fun hxc => h.1 hxc.symm), ih b h.2]

theorem splitPrefixTo_eq_none {c : Char} :
    ∀ {s : List Char}, splitPrefixTo s c = none ↔ c ∉ s := by
  intro s
  induction s with
  | nil => simp [splitPrefixTo]
  | cons x xs ih =>
    rw [splitPrefixTo]
    by_cases hx : x = c
    · rw [if_pos hx]; subst hx; simp
    · rw [if_neg hx]
      cases hs : splitPrefixTo xs c with
      | none =>
        simp only [List.mem_cons, not_or]
        exact iff_of_true trivial ⟨fun hcx => hx hcx.symm, ih.mp hs⟩
      | some p =>
        obtain ⟨a2, b2⟩ := p
        simp only [List.mem_cons, not_or]
        refine iff_of_false (by simp) (fun h => h.2 ?_)
        obtain ⟨h1, -⟩ := splitPrefixTo_eq_some hs
        rw [h1]
        simp

theorem splitPrefix_eq_some {pre : List Char} :
    ∀ {s r : List Char}, splitPrefix s pre = some r → s = pre ++ r := by
  induction pre with
  | nil =>
    intro s r h
    simp only [splitPrefix, splitPrefixAux, Option.some.injEq] at h
    simp [h]
  | cons p ps ih =>
    intro s r h
    cases s with
    | nil => simp [splitPrefix, splitPrefixAux] at h
    | cons c cs =>
      rw [splitPrefix, splitPrefixAux] at h
      by_cases hc : c = p
      · rw [if_pos hc] at h
        rw [List.cons_append, ← hc, ih h]
      · rw [if_neg hc] at h
        simp at h

theorem splitPrefix_append : ∀ (pre r : List Char), splitPrefix (pre ++ r) pre = some r := by
  intro pre
  induction pre with
  | nil => intro r; rfl
  | cons p ps ih =>
    intro r
    rw [List.cons_append, splitPrefix, splitPrefixAux, if_pos rfl]
    exact ih r

theorem printHashType_no_colon (ht : HashType) : ':' ∉ printHashType ht := by
  cases ht <;> decide

theorem parseHashType_printHashType (ht : HashType) :
    parseHashType (printHashType ht) = some ht := by
  cases ht <;> rfl

theorem parseHashType_eq_some {a : List Char} {ht : HashType} :
    parseHashType a = some ht → a = printHashType ht := by
  intro h
  rw [parseHashType] at h
  by_cases h1 : a = "md5".toList
  · rw [if_pos h1] at h; simp only [Option.some.injEq] at h; rw [h1, ← h]; rfl
  rw [if_neg h1] at h
  by_cases h2 : a = "sha1".toList
  · rw [if_pos h2] at h; simp only [Option.some.injEq] at h; rw [h2, ← h]; rfl
  rw [if_neg h2] at h
  by_cases h3 : a = "sha256".toList
  · rw [if_pos h3] at h; simp only [Option.some.injEq] at h; rw [h3, ← h]; rfl
  rw [if_neg h3] at h
  by_cases h4 : a = "sha512".toList
  · rw [if_pos h4] at h; simp only [Option.some.injEq] at h; rw [h4, ← h]; rfl
  · rw [if_neg h4] at h; simp at h

end Nix

namespace Nix


theorem splitPrefix_r_printHashType (ht : HashType) (t : List Char) :
    splitPrefix (printHashType ht ++ t) "r:".toList = none := by
  cases ht <;> rfl

/-- Evaluation of the prefix parser once the input is split as a colon-free
token, a colon and a remainder. -/
theorem parseContentAddressMethodPrefix_cons (pfx r : List Char) (hc : ':' ∉ pfx) :
    parseContentAddressMethodPrefix (pfx ++ ':' :: r) =
      (if pfx = "text".toList then
        match parseHashTypeStep (pfx ++ ':' :: r) r with
        | .error e => .error e
        | .ok (hashType, rest2) => .ok ((.textHashMethod, hashType), rest2)
      else if pfx = "fixed".toList then
        match
          (match splitPrefix r "r:".toList with
           | some r2 => (FileIngestionMethod.Recursive, r2)
           | none => (FileIngestionMethod.Flat, r)) with
        | (method, rest1) =>
          match parseHashTypeStep (pfx ++ ':' :: r) rest1 with
          | .error e => .error e
          | .ok (hashType, rest2) => .ok ((.fileIngestionMethod method, hashType), rest2)
      else .error (.unrecognizedCA pfx)) := by
  simp only [parseContentAddressMethodPrefix, splitPrefixTo_append pfx r hc]

/-- Computation of the prefix parser on a rendered method-and-algorithm string
followed by a colon and any continuation. -/
theorem parseContentAddressMethodPrefix_render (cam : ContentAddressMethod) (ht : HashType)
    (rest : List Char) :
    parseContentAddressMethodPrefix (renderContentAddressMethodAndHash cam ht ++ ':' :: rest)
      = .ok ((cam, ht), rest) := by
  have hno := printHashType_no_colon ht
  have hpp := parseHashType_printHashType ht
  have h2 : splitPrefixTo (printHashType ht ++ ':' :: rest) ':' = some (printHashType ht, rest) :=
    splitPrefixTo_append _ _ hno
  cases cam with
  | textHashMethod =>
    have e1 : renderContentAddressMethodAndHash .textHashMethod ht ++ ':' :: rest
        = "text".toList ++ ':' :: (printHashType ht ++ ':' :: rest) := by
      simp [renderContentAddressMethodAndHash]
    rw [e1, parseContentAddressMethodPrefix_cons _ _ (by decide)]
    simp [parseHashTypeStep, h2, hpp]
  | fileIngestionMethod fim =>
    cases fim with
    | Flat =>
      have e1 : renderContentAddressMethodAndHash (.fileIngestionMethod .Flat) ht ++ ':' :: rest
          = "fixed".toList ++ ':' :: (printHashType ht ++ ':' :: rest) := by
        simp [renderContentAddressMethodAndHash, makeFileIngestionPrefix]
      have hflat : splitPrefix (printHashType ht ++ ':' :: rest) ['r', ':'] = none :=
        splitPrefix_r_printHashType ht (':' :: rest)
      rw [e1, parseContentAddressMethodPrefix_cons _ _ (by decide)]
      simp [parseHashTypeStep, h2, hpp, hflat]
    | Recursive =>
      have e1 : renderContentAddressMethodAndHash (.fileIngestionMethod .Recursive) ht
            ++ ':' :: rest
          = "fixed".toList ++ ':' :: ("r:".toList ++ (printHashType ht ++ ':' :: rest)) := by
        simp [renderContentAddressMethodAndHash, makeFileIngestionPrefix]
      have hrec : splitPrefix ('r' :: ':' :: (printHashType ht ++ ':' :: rest)) ['r', ':']
          = some (printHashType ht ++ ':' :: rest) :=
        splitPrefix_append "r:".toList (printHashType ht ++ ':' :: rest)
      rw [e1, parseContentAddressMethodPrefix_cons _ _ (by decide)]
      simp [parseHashTypeStep, h2, hpp, hrec]

/-- Inversion of the prefix parser: a successful parse pins down the shape of
the input as the rendered method and algorithm, a colon and the remainder. -/
theorem parseContentAddressMethodPrefix_ok {s rest : List Char} {cam : ContentAddressMethod}
    {ht : HashType} :
    parseContentAddressMethodPrefix s = .ok ((cam, ht), rest) →
    s = renderContentAddressMethodAndHash cam ht ++ ':' :: rest := by
  intro h
  cases hsp : splitPrefixTo s ':' with
  | none => rw [parseContentAddressMethodPrefix, hsp] at h; simp at h
  | some pr =>
    obtain ⟨pfx, r0⟩ := pr
    obtain ⟨hs0, hcn⟩ := splitPrefixTo_eq_some hsp
    subst hs0
    rw [parseContentAddressMethodPrefix_cons pfx r0 hcn] at h
    by_cases h1 : pfx = "text".toList
    · rw [if_pos h1] at h
      cases hps : parseHashTypeStep (pfx ++ ':' :: r0) r0 with
      | error e => rw [hps] at h; simp at h
      | ok p =>
        obtain ⟨ht2, r2⟩ := p
        rw [hps] at h
        simp only [Except.ok.injEq, Prod.mk.injEq] at h
        obtain ⟨⟨hcam, hht⟩, hrest⟩ := h
        subst hcam; subst hht; subst hrest
        rw [parseHashTypeStep] at hps
        cases hsp2 : splitPrefixTo r0 ':' with
        | none => rw [hsp2] at hps; simp at hps
        | some pr2 =>
          obtain ⟨algo, r3⟩ := pr2
          rw [hsp2] at hps
          simp only [] at hps
          obtain ⟨hr0, -⟩ := splitPrefixTo_eq_some hsp2
          cases hph : parseHashType algo with
          | none => rw [hph] at hps; simp at hps
          | some ht3 =>
            rw [hph] at hps
            simp only [Except.ok.injEq, Prod.mk.injEq] at hps
            obtain ⟨hht3, hr3⟩ := hps
            subst hht3; subst hr3
            rw [hr0, h1, parseHashType_eq_some hph]
            rfl
    · rw [if_neg h1] at h
      by_cases hfx : pfx = "fixed".toList
      · rw [if_pos hfx] at h
        cases hrp : splitPrefix r0 "r:".toList with
        | some rr =>
          rw [hrp] at h
          simp only [] at h
          cases hps : parseHashTypeStep (pfx ++ ':' :: r0) rr with
          | error e => rw [hps] at h; simp at h
          | ok p =>
            obtain ⟨ht2, r2⟩ := p
            rw [hps] at h
            simp only [Except.ok.injEq, Prod.mk.injEq] at h
            obtain ⟨⟨hcam, hht⟩, hrest⟩ := h
            subst hcam; subst hht; subst hrest
            rw [parseHashTypeStep] at hps
            cases hsp2 : splitPrefixTo rr ':' with
            | none => rw [hsp2] at hps; simp at hps
            | some pr2 =>
              obtain ⟨algo, r3⟩ := pr2
              rw [hsp2] at hps
              simp only [] at hps
              obtain ⟨hrr, -⟩ := splitPrefixTo_eq_some hsp2
              cases hph : parseHashType algo with
              | none => rw [hph] at hps; simp at hps
              | some ht3 =>
                rw [hph] at hps
                simp only [Except.ok.injEq, Prod.mk.injEq] at hps
                obtain ⟨hht3, hr3⟩ := hps
                subst hht3; subst hr3
                rw [splitPrefix_eq_some hrp, hrr, hfx, parseHashType_eq_some hph]
                rfl
        | none =>
          rw [hrp] at h
          simp only [] at h
          cases hps : parseHashTypeStep (pfx ++ ':' :: r0) r0 with
          | error e => rw [hps] at h; simp at h
          | ok p =>
            obtain ⟨ht2, r2⟩ := p
            rw [hps] at h
            simp only [Except.ok.injEq, Prod.mk.injEq] at h
            obtain ⟨⟨hcam, hht⟩, hrest⟩ := h
            subst hcam; subst hht; subst hrest
            rw [parseHashTypeStep] at hps
            cases hsp2 : splitPrefixTo r0 ':' with
            | none => rw [hsp2] at hps; simp at hps
            | some pr2 =>
              obtain ⟨algo, r3⟩ := pr2
              rw [hsp2] at hps
              simp only [] at hps
              obtain ⟨hr0, -⟩ := splitPrefixTo_eq_some hsp2
              cases hph : parseHashType algo with
              | none => rw [hph] at hps; simp at hps
              | some ht3 =>
                rw [hph] at hps
                simp only [Except.ok.injEq, Prod.mk.injEq] at hps
                obtain ⟨hht3, hr3⟩ := hps
                subst hht3; subst hr3
                rw [hr0, hfx, parseHashType_eq_some hph]
                rfl
      · rw [if_neg hfx] at h
        simp at h

/-- Claim C1: for every address string accepted by parseContentAddress,
rendering the parsed value returns the original string. -/
theorem renderContentAddress_parseContentAddress (s : List Char) (ca : ContentAddress)
    (h : parseContentAddress s = .ok ca) : renderContentAddress ca = s := by
  rw [parseContentAddress] at h
  cases hp : parseContentAddressMethodPrefix s with
  | error e => rw [hp] at h; simp at h
  | ok p =>
    obtain ⟨⟨cam, ht⟩, rest⟩ := p
    rw [hp] at h
    simp only [] at h
    have hs := parseContentAddressMethodPrefix_ok hp
    cases cam with
    | textHashMethod =>
      rw [Hash.parseNonSRIUnprefixed] at h
      by_cases hv : Hash.validDigest ht rest = true
      · rw [if_pos hv] at h
        simp only [Except.ok.injEq] at h
        subst h
        rw [hs]
        simp [renderContentAddress, renderContentAddressMethodAndHash, Hash.to_string_Base32]
      · rw [if_neg hv] at h; simp at h
    | fileIngestionMethod fim =>
      rw [Hash.parseNonSRIUnprefixed] at h
      by_cases hv : Hash.validDigest ht rest = true
      · rw [if_pos hv] at h
        simp only [Except.ok.injEq] at h
        subst h
        rw [hs]
        simp [renderContentAddress, renderContentAddressMethodAndHash, Hash.to_string_Base32]
      · rw [if_neg hv] at h; simp at h

/-- Witness for C1 at a concrete accepted string. -/
theorem renderContentAddress_parseContentAddress_witness :
    renderContentAddress (.textHash ⟨⟨.sha256, List.replicate 52 '0'⟩⟩)
      = "text:sha256:".toList ++ List.replicate 52 '0' :=
  renderContentAddress_parseContentAddress _ _ rfl

/-- Claim C2: parsing the rendering of any content address whose digest body is
well formed returns the same value. -/
theorem parseContentAddress_renderContentAddress (ca : ContentAddress)
    (h : contentAddressWf ca = true) :
    parseContentAddress (renderContentAddress ca) = .ok ca := by
  cases ca with
  | textHash th =>
    obtain ⟨⟨ht, d⟩⟩ := th
    have hv : Hash.validDigest ht d = true := h
    have hr : renderContentAddress (.textHash ⟨⟨ht, d⟩⟩)
        = renderContentAddressMethodAndHash .textHashMethod ht ++ ':' :: d := by
      simp [renderContentAddress, renderContentAddressMethodAndHash, Hash.to_string_Base32]
    rw [hr]
    simp [parseContentAddress, parseContentAddressMethodPrefix_render,
      Hash.parseNonSRIUnprefixed, hv]
  | fixedOutputHash f =>
    obtain ⟨fim, ht, d⟩ := f
    have hv : Hash.validDigest ht d = true := h
    have hr : renderContentAddress (.fixedOutputHash ⟨fim, ⟨ht, d⟩⟩)
        = renderContentAddressMethodAndHash (.fileIngestionMethod fim) ht ++ ':' :: d := by
      simp [renderContentAddress, renderContentAddressMethodAndHash, Hash.to_string_Base32,
        makeContentAddressingPrefix]
    rw [hr]
    simp [parseContentAddress, parseContentAddressMethodPrefix_render,
      Hash.parseNonSRIUnprefixed, hv]

/-- Witness for C2 at a concrete well-formed value. -/
theorem parseContentAddress_renderContentAddress_witness :
    parseContentAddress
        (renderContentAddress (.fixedOutputHash ⟨.Recursive, ⟨.sha1, List.replicate 32 'a'⟩⟩))
      = .ok (.fixedOutputHash ⟨.Recursive, ⟨.sha1, List.replicate 32 'a'⟩⟩) :=
  parseContentAddress_renderContentAddress _ rfl

/-- Claim C10: rendering a method together with an algorithm and parsing it
back with the method-only entry point returns the same pair. -/
theorem parseContentAddressMethod_render (cam : ContentAddressMethod) (ht : HashType) :
    parseContentAddressMethod (renderContentAddressMethodAndHash cam ht) = .ok (cam, ht) := by
  have e1 : renderContentAddressMethodAndHash cam ht ++ [':']
      = renderContentAddressMethodAndHash cam ht ++ ':' :: ([] : List Char) := rfl
  rw [parseContentAddressMethod, e1, parseContentAddressMethodPrefix_render]

/-- Forward evaluation: with no colon in the remainder, the algorithm step
fails with the malformed-hash error carrying the whole input. -/
theorem parseHashTypeStep_none (w r : List Char) (h : ':' ∉ r) :
    parseHashTypeStep w r = .error (.malformedHash w) := by
  rw [parseHashTypeStep, splitPrefixTo_eq_none.mpr h]

/-- Inversion: an error of the algorithm step is either the malformed-hash
error (exactly when the remainder has no colon) or an unknown-algorithm error. -/
theorem parseHashTypeStep_error {w r : List Char} {e : ParseError} :
    parseHashTypeStep w r = .error e →
    (e = .malformedHash w ∧ ':' ∉ r) ∨ (∃ a, e = .unknownHashAlgo a) := by
  intro h
  rw [parseHashTypeStep] at h
  cases hsp : splitPrefixTo r ':' with
  | none =>
    rw [hsp] at h
    simp only [Except.error.injEq] at h
    exact Or.inl ⟨h.symm, splitPrefixTo_eq_none.mp hsp⟩
  | some pr =>
    obtain ⟨algo, r3⟩ := pr
    rw [hsp] at h
    simp only [] at h
    cases hph : parseHashType algo with
    | none =>
      rw [hph] at h
      simp only [Except.error.injEq] at h
      exact Or.inr ⟨algo, h.symm⟩
    | some ht3 => rw [hph] at h; simp at h

/-- Claim C6: parsing fails with a MalformedAddress error exactly when a colon
separator is missing at the scheme-prefix boundary or at the algorithm
boundary, and with an UnrecognizedPrefix error, naming the offending token and
listing the two valid prefixes, exactly when the token before the first colon
is neither text nor fixed. -/
theorem parseErrors_characterization :
    (∀ s : List Char, ':' ∉ s →
        parseContentAddressMethodPrefix s = .error (.malformedCA s))
    ∧ (∀ pfx r : List Char, ':' ∉ pfx → pfx ≠ "text".toList → pfx ≠ "fixed".toList →
        parseContentAddressMethodPrefix (pfx ++ ':' :: r) = .error (.unrecognizedCA pfx))
    ∧ (∀ r : List Char, ':' ∉ r →
        parseContentAddressMethodPrefix ("text".toList ++ ':' :: r)
          = .error (.malformedHash ("text".toList ++ ':' :: r)))
    ∧ (∀ r : List Char,
        ':' ∉ (match splitPrefix r "r:".toList with | some r2 => r2 | none => r) →
        parseContentAddressMethodPrefix ("fixed".toList ++ ':' :: r)
          = .error (.malformedHash ("fixed".toList ++ ':' :: r)))
    ∧ (∀ (s : List Char) (e : ParseError),
        parseContentAddressMethodPrefix s = .error e → e.isMalformed = true →
        ':' ∉ s ∨ ∃ pfx r, s = pfx ++ ':' :: r ∧ ':' ∉ pfx ∧
          ((pfx = "text".toList ∧ ':' ∉ r)
            ∨ (pfx = "fixed".toList ∧
                ':' ∉ (match splitPrefix r "r:".toList with | some r2 => r2 | none => r))))
    ∧ (∀ (s pfx : List Char),
        parseContentAddressMethodPrefix s = .error (.unrecognizedCA pfx) →
        ∃ r, s = pfx ++ ':' :: r ∧ ':' ∉ pfx
          ∧ pfx ≠ "text".toList ∧ pfx ≠ "fixed".toList)
    ∧ (∀ p : List Char, ParseError.message (.unrecognizedCA p)
        = "content address prefix '".toList ++ p
          ++ "' is unrecognized. Recogonized prefixes are 'text' or 'fixed'".toList) := by
  refine ⟨?_, ?_, ?_, ?_, ?_, ?_, fun p => rfl⟩
  · intro s h
    rw [parseContentAddressMethodPrefix, splitPrefixTo_eq_none.mpr h]
  · intro pfx r hcn h1 h2
    rw [parseContentAddressMethodPrefix_cons pfx r hcn, if_neg h1, if_neg h2]
  · intro r h
    rw [parseContentAddressMethodPrefix_cons _ _ (by decide), if_pos rfl,
      parseHashTypeStep_none _ _ h]
  · intro r h
    rw [parseContentAddressMethodPrefix_cons _ _ (by decide), if_neg (by decide), if_pos rfl]
    cases hrp : splitPrefix r "r:".toList with
    | some r2 =>
      rw [hrp] at h
      simp only [] at h
      simp only []
      rw [parseHashTypeStep_none _ _ h]
    | none =>
      rw [hrp] at h
      simp only [] at h
      simp only []
      rw [parseHashTypeStep_none _ _ h]
  · intro s e hpe hmal
    cases hsp : splitPrefixTo s ':' with
    | none => exact Or.inl (splitPrefixTo_eq_none.mp hsp)
    | some pr =>
      obtain ⟨pfx, r0⟩ := pr
      obtain ⟨hs0, hcn⟩ := splitPrefixTo_eq_some hsp
      subst hs0
      refine Or.inr ⟨pfx, r0, rfl, hcn, ?_⟩
      rw [parseContentAddressMethodPrefix_cons pfx r0 hcn] at hpe
      by_cases h1 : pfx = "text".toList
      · rw [if_pos h1] at hpe
        cases hps : parseHashTypeStep (pfx ++ ':' :: r0) r0 with
        | error e2 =>
          rw [hps] at hpe
          simp only [Except.error.injEq] at hpe
          subst hpe
          rcases parseHashTypeStep_error hps with ⟨he, hr⟩ | ⟨a, he⟩
          · exact Or.inl ⟨h1, hr⟩
          · subst he; simp [ParseError.isMalformed] at hmal
        | ok p =>
          obtain ⟨ht2, r2⟩ := p
          rw [hps] at hpe
          simp at hpe
      · rw [if_neg h1] at hpe
        by_cases h2 : pfx = "fixed".toList
        · rw [if_pos h2] at hpe
          cases hrp : splitPrefix r0 "r:".toList with
          | some rr =>
            rw [hrp] at hpe
            simp only [] at hpe
            cases hps : parseHashTypeStep (pfx ++ ':' :: r0) rr with
            | error e2 =>
              rw [hps] at hpe
              simp only [Except.error.injEq] at hpe
              subst hpe
              rcases parseHashTypeStep_error hps with ⟨he, hr⟩ | ⟨a, he⟩
              · refine Or.inr ⟨h2, ?_⟩
                simp only []
                exact hr
              · subst he; simp [ParseError.isMalformed] at hmal
            | ok p =>
              obtain ⟨ht2, r2⟩ := p
              rw [hps] at hpe
              simp at hpe
          | none =>
            rw [hrp] at hpe
            simp only [] at hpe
            cases hps : parseHashTypeStep (pfx ++ ':' :: r0) r0 with
            | error e2 =>
              rw [hps] at hpe
              simp only [Except.error.injEq] at hpe
              subst hpe
              rcases parseHashTypeStep_error hps with ⟨he, hr⟩ | ⟨a, he⟩
              · refine Or.inr ⟨h2, ?_⟩
                simp only []
                exact hr
              · subst he; simp [ParseError.isMalformed] at hmal
            | ok p =>
              obtain ⟨ht2, r2⟩ := p
              rw [hps] at hpe
              simp at hpe
        · rw [if_neg h2] at hpe
          simp only [Except.error.injEq] at hpe
          subst hpe
          simp [ParseError.isMalformed] at hmal
  · intro s pfx hpe
    cases hsp : splitPrefixTo s ':' with
    | none => rw [parseContentAddressMethodPrefix, hsp] at hpe; simp at hpe
    | some pr =>
      obtain ⟨pfx0, r0⟩ := pr
      obtain ⟨hs0, hcn⟩ := splitPrefixTo_eq_some hsp
      subst hs0
      rw [parseContentAddressMethodPrefix_cons pfx0 r0 hcn] at hpe
      by_cases h1 : pfx0 = "text".toList
      · rw [if_pos h1] at hpe
        cases hps : parseHashTypeStep (pfx0 ++ ':' :: r0) r0 with
        | error e2 =>
          rw [hps] at hpe
          simp only [Except.error.injEq] at hpe
          rcases parseHashTypeStep_error hps with ⟨he, -⟩ | ⟨a, he⟩ <;>
            (subst he; simp at hpe)
        | ok p =>
          obtain ⟨ht2, r2⟩ := p
          rw [hps] at hpe
          simp at hpe
      · rw [if_neg h1] at hpe
        by_cases h2 : pfx0 = "fixed".toList
        · rw [if_pos h2] at hpe
          cases hrp : splitPrefix r0 "r:".toList with
          | some rr =>
            rw [hrp] at hpe
            simp only [] at hpe
            cases hps : parseHashTypeStep (pfx0 ++ ':' :: r0) rr with
            | error e2 =>
              rw [hps] at hpe
              simp only [Except.error.injEq] at hpe
              rcases parseHashTypeStep_error hps with ⟨he, -⟩ | ⟨a, he⟩ <;>
                (subst he; simp at hpe)
            | ok p =>
              obtain ⟨ht2, r2⟩ := p
              rw [hps] at hpe
              simp at hpe
          | none =>
            rw [hrp] at hpe
            simp only [] at hpe
            cases hps : parseHashTypeStep (pfx0 ++ ':' :: r0) r0 with
            | error e2 =>
              rw [hps] at hpe
              simp only [Except.error.injEq] at hpe
              rcases parseHashTypeStep_error hps with ⟨he, -⟩ | ⟨a, he⟩ <;>
                (subst he; simp at hpe)
            | ok p =>
              obtain ⟨ht2, r2⟩ := p
              rw [hps] at hpe
              simp at hpe
        · rw [if_neg h2] at hpe
          simp only [Except.error.injEq, ParseError.unrecognizedCA.injEq] at hpe
          subst hpe
          exact ⟨r0, rfl, hcn, h1, h2⟩

/-- Witness for C6 at concrete malformed and unrecognized inputs. -/
theorem parseErrors_characterization_witness :
    parseContentAddressMethodPrefix "textsha256abc".toList
        = .error (.malformedCA "textsha256abc".toList)
      ∧ parseContentAddressMethodPrefix "foo:sha256:abc".toList
        = .error (.unrecognizedCA "foo".toList)
      ∧ parseContentAddressMethodPrefix "text:sha256".toList
        = .error (.malformedHash "text:sha256".toList) := by
  refine ⟨parseErrors_characterization.1 _ (by decide), ?_, ?_⟩
  · exact parseErrors_characterization.2.1 "foo".toList "sha256:abc".toList
      (by decide) (by decide) (by decide)
  · exact parseErrors_characterization.2.2.1 "sha256".toList (by decide)

/-- Claim C3: combining the text method with a self reference always fails with
the invalid-reference-combination error; otherwise combination succeeds and
builds the text info from the non-self references, or the fixed info from the
full reference set, so a text info never carries a self reference. -/
theorem contentAddressFromMethodHashAndRefs_spec :
    ∀ (h : Hash) (others : List (List Char)),
      (contentAddressFromMethodHashAndRefs .textHashMethod h ⟨true, others⟩
          = .error .invalidReferenceCombination)
      ∧ (contentAddressFromMethodHashAndRefs .textHashMethod h ⟨false, others⟩
          = .ok (.textInfo ⟨⟨h⟩, others⟩))
      ∧ (∀ (m : FileIngestionMethod) (self : Bool),
          contentAddressFromMethodHashAndRefs (.fileIngestionMethod m) h ⟨self, others⟩
            = .ok (.fixedOutputInfo ⟨⟨m, h⟩, ⟨self, others⟩⟩)) :=
  fun _ _ => ⟨rfl, rfl, fun _ _ => rfl⟩

/-- Claim C4: the ingestion prefix encoding maps Flat to the empty string and
Recursive to the r-colon token, injectively; on the decoding side, whenever
parseContentAddressingPrefix yields an ingestion method, the consumed part of
the input is exactly that method's encoding, so no other prefix decodes to an
ingestion method. -/
theorem ingestionPrefixBijection :
    (makeFileIngestionPrefix .Flat = [] ∧ makeFileIngestionPrefix .Recursive = "r:".toList)
    ∧ (∀ m1 m2 : FileIngestionMethod,
        makeFileIngestionPrefix m1 = makeFileIngestionPrefix m2 → m1 = m2)
    ∧ (∀ (s rest : List Char) (fim : FileIngestionMethod),
        parseContentAddressingPrefix s = (.fileIngestionMethod fim, rest) →
        s = makeFileIngestionPrefix fim ++ rest)
    ∧ (∀ (s rest : List Char),
        parseContentAddressingPrefix s = (.textHashMethod, rest) →
        s = "text:".toList ++ rest) := by
  refine ⟨⟨rfl, rfl⟩, ?_, ?_, ?_⟩
  · intro m1 m2 h
    cases m1 <;> cases m2 <;> first | rfl | simp [makeFileIngestionPrefix] at h
  · intro s rest fim h
    rw [parseContentAddressingPrefix] at h
    cases hr : splitPrefix s "r:".toList with
    | some r2 =>
      rw [hr] at h
      simp only [Prod.mk.injEq, ContentAddressMethod.fileIngestionMethod.injEq] at h
      obtain ⟨hf, hrest⟩ := h
      subst hf; subst hrest
      exact splitPrefix_eq_some hr
    | none =>
      rw [hr] at h
      cases ht : splitPrefix s "text:".toList with
      | some r2 => rw [ht] at h; simp at h
      | none =>
        rw [ht] at h
        simp only [Prod.mk.injEq, ContentAddressMethod.fileIngestionMethod.injEq] at h
        obtain ⟨hf, hrest⟩ := h
        subst hf; subst hrest
        rfl
  · intro s rest h
    rw [parseContentAddressingPrefix] at h
    cases hr : splitPrefix s "r:".toList with
    | some r2 => rw [hr] at h; simp at h
    | none =>
      rw [hr] at h
      cases ht : splitPrefix s "text:".toList with
      | some r2 =>
        rw [ht] at h
        simp only [Prod.mk.injEq] at h
        obtain ⟨-, hrest⟩ := h
        subst hrest
        exact splitPrefix_eq_some ht
      | none => rw [ht] at h; simp at h

/-- Witness for C4 at a concrete recursive-prefixed string. -/
theorem ingestionPrefixBijection_witness :
    "r:ab".toList = makeFileIngestionPrefix .Recursive ++ "ab".toList :=
  ingestionPrefixBijection.2.2.1 "r:ab".toList "ab".toList .Recursive rfl

/-- Counterexample to C5 as stated: the method-only entry point does not accept
a bare method descriptor without the hash algorithm; on the input fixed-r it
fails with the malformed-hash error instead of returning the recursive fixed
method. -/
theorem parseContentAddressMethod_fixed_r_fails :
    parseContentAddressMethod "fixed:r".toList = .error (.malformedHash "fixed:r:".toList) :=
  rfl

/-- Claim C5 as amended: the method-only entry point appends a trailing colon,
feeds the prefix grammar and discards the leftover continuation; its input must
carry the method and the hash algorithm, so fixed-r-sha256 succeeds as the
recursive fixed method with sha256, text-sha256 succeeds, and the bare
descriptor fixed-r fails with the malformed-hash error. -/
theorem parseContentAddressMethod_spec :
    (∀ s : List Char,
        parseContentAddressMethod s
          = (parseContentAddressMethodPrefix (s ++ [':'])).map Prod.fst)
    ∧ parseContentAddressMethod "fixed:r:sha256".toList
        = .ok (.fileIngestionMethod .Recursive, .sha256)
    ∧ parseContentAddressMethod "text:sha256".toList = .ok (.textHashMethod, .sha256)
    ∧ parseContentAddressMethod "fixed:r".toList
        = .error (.malformedHash "fixed:r:".toList) := by
  refine ⟨?_, rfl, rfl, rfl⟩
  intro s
  rw [parseContentAddressMethod]
  cases parseContentAddressMethodPrefix (s ++ [':']) <;> rfl

/-- Claim C7: rendering a text address is the text scheme tag followed by the
hash in unpadded base-32 with its algorithm; rendering a fixed address is the
fixed scheme tag, the ingestion prefix and the hash; for the flat method no
r-colon token is inserted. -/
theorem renderContentAddress_spec :
    ∀ h : Hash,
      (renderContentAddress (.textHash ⟨h⟩) = "text:".toList ++ h.to_string_Base32 true)
      ∧ (∀ m : FileIngestionMethod,
          renderContentAddress (.fixedOutputHash ⟨m, h⟩)
            = "fixed:".toList ++ makeFileIngestionPrefix m ++ h.to_string_Base32 true)
      ∧ (renderContentAddress (.fixedOutputHash ⟨.Flat, h⟩)
          = "fixed:".toList ++ h.to_string_Base32 true) :=
  fun _ => ⟨rfl, fun _ => rfl, rfl⟩

/-- Claim C8: the optional variants treat the empty string as no address and
render the absent address as the empty string; on non-empty strings the
optional parser behaves exactly as the plain parser. -/
theorem optionalAddressIdentity :
    (parseContentAddressOpt [] = .ok none)
    ∧ (renderContentAddressOpt none = [])
    ∧ (∀ s : List Char, s ≠ [] →
        parseContentAddressOpt s = (parseContentAddress s).map some) := by
  refine ⟨rfl, rfl, fun s hs => ?_⟩
  rw [parseContentAddressOpt, if_neg hs]
  cases parseContentAddress s <;> rfl

/-- Witness for C8 at a concrete non-empty string. -/
theorem optionalAddressIdentity_witness :
    parseContentAddressOpt "x".toList = (parseContentAddress "x".toList).map some :=
  optionalAddressIdentity.2.2 "x".toList (by decide)

/-- Claim C9: stripping references from a bare address always succeeds, yields
an empty reference set, and preserves the underlying method and hash. -/
theorem caWithoutRefs_spec :
    ∀ ca : ContentAddress,
      (match caWithoutRefs ca with
        | .textInfo ti => ti.references = []
        | .fixedOutputInfo fi => fi.references.isEmptyRefs = true)
      ∧ getContentAddressMethod (caWithoutRefs ca)
          = (match ca with
             | .textHash _ => .textHashMethod
             | .fixedOutputHash f => .fileIngestionMethod f.method)
      ∧ getContentAddressHashWithRefs (caWithoutRefs ca) = getContentAddressHash ca := by
  intro ca
  cases ca with
  | textHash th => exact ⟨rfl, rfl, rfl⟩
  | fixedOutputHash f => exact ⟨rfl, rfl, rfl⟩

end Nix
